import Mathlib

set_option maxRecDepth 8192

/-!
Verification of the `bitcoin-decode-address` repository: a shallow embedding of
`src/extract.ts` and `src/dist/extract.js` (the scriptPubKey classifier, the
bit-repacking routine `convertBits`, and the address codecs), together with
theorems settling the specification's claims about them.

Scripts are embedded as `List Nat` (byte values), JavaScript numbers as `Nat`
(the program only ever feeds byte-sized values to the arithmetic here, so the
JS 32-bit shift/mask operations agree with exact natural-number arithmetic on
every reachable state).  Thrown JS `Error`s become `Except DecodeError`.
The external collaborators named by the spec (SHA-256 and RIPEMD-160, which
the spec treats as black boxes, and the `@scure/base` codecs plus the hex
parser, which are not part of `src/`) are either taken as function parameters
or modelled from the spec, as marked on each definition.
-/

namespace BitcoinDecode

/-- The failure kinds of the decoder, named as in the specification's error
model (§7): hex parsing, bit-repacking input range, bit-repacking padding,
and the classifier's catch-all. -/
inductive DecodeError where
  | invalidHexInput
  | invalidInputValue
  | invalidPadding
  | unsupportedScriptFormat
  deriving DecidableEq, Repr

deriving instance DecidableEq for Except

/-- The body of the inner `while (bits >= toBits)` loop of `convertBits`
(src/extract.ts lines 51–54), recursing on a fuel argument so that the
function stays structurally recursive (each iteration strictly decreases
`bits` by `t ≥ 1`, so `bits` itself is enough fuel). -/
def pushWordsGo : Nat → Nat → Nat → Nat → List Nat
  | 0, _, _, _ => []
  | fuel + 1, acc, bits, t =>
    if 0 < t ∧ t ≤ bits then
      ((acc >>> (bits - t)) &&& (2 ^ t - 1)) :: pushWordsGo fuel acc (bits - t) t
    else []

/-- The inner `while (bits >= toBits)` loop of `convertBits`
(src/extract.ts lines 51–54): repeatedly take the top `t` bits of the
accumulator and emit them masked to `t` bits.  `acc` is the accumulator,
`bits` the current bit count, `t` the output width `toBits`. -/
def pushWords (acc bits t : Nat) : List Nat := pushWordsGo bits acc bits t

/-- The main `for (const value of data)` loop of `convertBits`
(src/extract.ts lines 45–55): validate each value against `fromBits`,
shift it into the accumulator, and emit full output words.  Returns the
emitted words together with the final accumulator and bit count. -/
def convertBitsLoop (data : List Nat) (f t acc bits : Nat) :
    Except DecodeError (List Nat × Nat × Nat) :=
  match data with
  | [] => .ok ([], acc, bits)
  | v :: rest =>
    if v >>> f ≠ 0 then .error .invalidInputValue
    else
      match convertBitsLoop rest f t ((acc <<< f) ||| v) ((bits + f) % t) with
      | .error e => .error e
      | .ok (ws, a, b) => .ok (pushWords ((acc <<< f) ||| v) (bits + f) t ++ ws, a, b)

/-- Embedding of `convertBits` (src/extract.ts lines 39–66, identical in
src/dist/extract.js lines 33–58): repack `data` from `f`-bit to `t`-bit
words, with the source's padding behaviour and error conditions.
The `value < 0` half of the source's validity test cannot fire on `Nat`. -/
def convertBits (data : List Nat) (f t : Nat) (pad : Bool) :
    Except DecodeError (List Nat) :=
  match convertBitsLoop data f t 0 0 with
  | .error e => .error e
  | .ok (ws, acc, bits) =>
    if pad then
      if 0 < bits then .ok (ws ++ [(acc <<< (t - bits)) &&& (2 ^ t - 1)])
      else .ok ws
    else if f ≤ bits ∨ ((acc <<< (t - bits)) &&& (2 ^ t - 1)) ≠ 0 then
      .error .invalidPadding
    else .ok ws

/-- The accumulator value `convertBits` holds after its main loop, written as
the fold of the loop's accumulator update (src/extract.ts line 49). -/
def cbFinalAcc (data : List Nat) (f : Nat) : Nat :=
  data.foldl (fun a v => (a <<< f) ||| v) 0

/-- The bit count `convertBits` holds after its main loop, written as the fold
of the loop's bit-count update (lines 50–52: add `f`, then reduce below `t`). -/
def cbFinalBits (data : List Nat) (f t : Nat) : Nat :=
  data.foldl (fun b _ => (b + f) % t) 0

/-- The words emitted by `convertBits`'s main loop (before any padding word). -/
def cbWords (data : List Nat) (f t : Nat) : List Nat :=
  match convertBitsLoop data f t 0 0 with
  | .error _ => []
  | .ok (ws, _, _) => ws

/-- The number obtained by reading a word list as big-endian base-`2^w` digits
appended to `init`: the numeric value of the concatenated bit stream.  Used to
state what `convertBits` computes. -/
def wordVal (init w : Nat) (l : List Nat) : Nat :=
  l.foldl (fun a v => a * 2 ^ w + v) init

/-- The 58-symbol Bitcoin alphabet, the fixed published constant of §6. -/
def b58Alphabet : List Char :=
  "123456789ABCDEFGHJKLMNPQRSTUVWXYZabcdefghijkmnopqrstuvwxyz".data

/-- Modelled from the spec: the base-256-to-base-58 big-integer conversion of
`base58.encode` from the external `@scure/base` collaborator (§4.2), emitting
most-significant digit first.  `natToB58 0 = []`, matching the convention that
zero bytes are carried by the leading-'1' rule, not by digits. -/
def natToB58Go : Nat → Nat → List Char
  | 0, _ => []
  | fuel + 1, n =>
    if 0 < n then natToB58Go fuel (n / 58) ++ [b58Alphabet.getD (n % 58) '1']
    else []

/-- Digits of `n` in base 58, most significant first (`n` itself is enough
fuel for the structural recursion, since `n / 58 < n` for positive `n`). -/
def natToB58 (n : Nat) : List Char := natToB58Go n n

/-- Modelled from the spec: `base58.encode` (§4.2) — each leading zero byte of
the payload maps to one leading `'1'` symbol, followed by the base-58 digits
of the remaining big-integer value. -/
def base58Encode (payload : List Nat) : String :=
  String.mk (List.replicate (payload.takeWhile (· == 0)).length '1'
    ++ natToB58 (payload.foldl (fun a b => a * 256 + b) 0))

/-- Embedding of `base58CheckEncode` (src/extract.ts lines 15–19): append the
first four bytes of the double hash as checksum, then base58-encode.  The hash
primitive is the external SHA-256 collaborator, taken as a parameter. -/
def base58CheckEncode (sha256 : List Nat → List Nat) (payload : List Nat) :
    String :=
  base58Encode (payload ++ (sha256 (sha256 payload)).take 4)

/-- The 32-symbol Bech32 alphabet, the fixed published constant of §6. -/
def bech32Charset : List Char := "qpzry9x8gf2tvdw0s3jn54khce6mua7l".data

/-- Modelled from the spec: the generator constants of the BCH-style
polynomial checksum "defined by the Bech32/Bech32m specifications" (§4.3),
i.e. BIP-173's `GEN`. -/
def bech32Gen : List Nat := [0x3b6a57b2, 0x26508e6d, 0x1ea119fa, 0x3d4233dd, 0x2a1462b3]

/-- Modelled from the spec: one step of the BIP-173 `polymod` checksum
computation over 5-bit values (§4.3). -/
def bech32PolymodStep (chk v : Nat) : Nat :=
  let b := chk >>> 25
  (List.range 5).foldl
    (fun c i => if b >>> i % 2 = 1 then c ^^^ bech32Gen.getD i 0 else c)
    (((chk &&& 0x1ffffff) <<< 5) ^^^ v)

/-- Modelled from the spec: the BIP-173 `polymod` function (§4.3). -/
def bech32Polymod (values : List Nat) : Nat := values.foldl bech32PolymodStep 1

/-- Modelled from the spec: the BIP-173 expansion of the human-readable part
into 5-bit values for checksumming (§4.3). -/
def bech32HrpExpand (hrp : List Char) : List Nat :=
  hrp.map (fun c => c.toNat >>> 5) ++ [0] ++ hrp.map (fun c => c.toNat &&& 31)

/-- Modelled from the spec: the six 5-bit checksum words over `hrp` and the
data words, with the variant-selecting constant `const` (§4.3: Bech32 uses
`1`, Bech32m uses `0x2bc830a3`). -/
def bech32CreateChecksum (const : Nat) (hrp : List Char) (data : List Nat) :
    List Nat :=
  let pm := bech32Polymod (bech32HrpExpand hrp ++ data
    ++ [0, 0, 0, 0, 0, 0]) ^^^ const
  (List.range 6).map (fun i => pm >>> (5 * (5 - i)) &&& 31)

/-- Modelled from the spec: the shared Bech32/Bech32m encoder (§4.3 step e):
`hrp + "1" + alphabet-mapped data and checksum words`, with the checksum
constant threaded from the caller. -/
def bech32EncodeGeneric (const : Nat) (hrp : String) (data : List Nat) :
    String :=
  hrp ++ "1" ++ String.mk ((data ++ bech32CreateChecksum const hrp.data data).map
    (fun v => bech32Charset.getD v 'q'))

/-- Modelled from the spec: `bech32.encode` of `@scure/base` — the witness v0
variant, checksum constant 1 (§4.3). -/
def bech32Encode (hrp : String) (data : List Nat) : String :=
  bech32EncodeGeneric 1 hrp data

/-- Embedding of `bech32mEncode` (src/extract.ts lines 27–29), whose
`bech32m.encode` collaborator is modelled from the spec: the witness v1+
variant, checksum constant 0x2bc830a3 (§4.3). -/
def bech32mEncode (hrp : String) (data : List Nat) : String :=
  bech32EncodeGeneric 0x2bc830a3 hrp data

/-- The P2PKH template test (src/dist/extract.js line 72):
length ≥ 25, bytes 0x76 0xa9 0x14 at positions 0–2. -/
def isP2PKH (s : List Nat) : Bool :=
  25 ≤ s.length && s.getD 0 0 == 0x76 && s.getD 1 0 == 0xa9 && s.getD 2 0 == 0x14

/-- The P2SH template test (src/dist/extract.js line 80):
length exactly 23, 0xa9 0x14 at positions 0–1, 0x87 at position 22. -/
def isP2SH (s : List Nat) : Bool :=
  s.length == 23 && s.getD 0 0 == 0xa9 && s.getD 1 0 == 0x14 && s.getD 22 0 == 0x87

/-- The P2PK template test (src/dist/extract.js line 88):
length ≥ 35, 0x41 at position 0, 0xac at the last position. -/
def isP2PK (s : List Nat) : Bool :=
  35 ≤ s.length && s.getD 0 0 == 0x41 && s.getD (s.length - 1) 0 == 0xac

/-- The P2TR template test (src/dist/extract.js line 98):
length exactly 34, 0x51 0x20 at positions 0–1. -/
def isP2TR (s : List Nat) : Bool :=
  s.length == 34 && s.getD 0 0 == 0x51 && s.getD 1 0 == 0x20

/-- The P2WSH template test (src/dist/extract.js lines 109–112):
length exactly 34, 0x00 0x20 at positions 0–1. -/
def isP2WSH (s : List Nat) : Bool :=
  s.length == 34 && s.getD 0 0 == 0x00 && s.getD 1 0 == 0x20

/-- The OP_RETURN template test (src/dist/extract.js line 122):
length ≥ 2, 0x6a at position 0. -/
def isOpReturn (s : List Nat) : Bool :=
  2 ≤ s.length && s.getD 0 0 == 0x6a

/-- One lowercase hexadecimal digit. -/
def hexDigit (n : Nat) : Char := "0123456789abcdef".data.getD n '0'

/-- `Buffer.prototype.toString("hex")`: two lowercase hex digits per byte. -/
def hexOfBytes (bs : List Nat) : String :=
  String.mk (bs.foldr (fun b cs => hexDigit (b / 16 % 16) :: hexDigit (b % 16) :: cs) [])

/-- Embedding of `decodeScriptPubKey` from src/dist/extract.js lines 64–132:
the ordered six-template classifier.  `Buffer.subarray(a, b)` is `drop a`
then `take (b - a)` (clamping at the end of the list, exactly as `subarray`
clamps).  The external SHA-256 and RIPEMD-160 hash collaborators are taken
as parameters; the `Buffer.isBuffer` guard cannot fail in the embedding,
where the input is a byte list by type. -/
def decodeScriptPubKey (sha256 ripemd160 : List Nat → List Nat)
    (s : List Nat) : Except DecodeError String :=
  if isP2PKH s then
    .ok (base58CheckEncode sha256 (0x00 :: (s.drop 3).take 20))
  else if isP2SH s then
    .ok (base58CheckEncode sha256 (0x05 :: (s.drop 2).take 20))
  else if isP2PK s then
    .ok (base58CheckEncode sha256
      (0x00 :: ripemd160 (sha256 ((s.drop 1).take (s.length - 2)))))
  else if isP2TR s then
    match convertBits ((s.drop 2).take 32) 8 5 true with
    | .error e => .error e
    | .ok ws => .ok (bech32mEncode "bc" (1 :: ws))
  else if isP2WSH s then
    match convertBits ((s.drop 2).take 32) 8 5 true with
    | .error e => .error e
    | .ok ws => .ok (bech32Encode "bc" (0 :: ws))
  else if isOpReturn s then
    .ok ("OP_RETURN: " ++ hexOfBytes ((s.drop 2).take (s.getD 1 0)))
  else .error .unsupportedScriptFormat

/-- Embedding of `decodeScriptPubKey` from src/extract.ts lines 73–123: the
variant committed as TypeScript source, which recognises only four templates
(no P2WSH, no OP_RETURN branch) and, in its P2PK branch, hashes the public
key with SHA-256 alone truncated to 20 bytes
(`Buffer.from(sha256(publicKey)).subarray(0, 20)`, line 102) instead of
RIPEMD-160 of SHA-256. -/
def decodeScriptPubKeyTS (sha256 : List Nat → List Nat)
    (s : List Nat) : Except DecodeError String :=
  if isP2PKH s then
    .ok (base58CheckEncode sha256 (0x00 :: (s.drop 3).take 20))
  else if isP2SH s then
    .ok (base58CheckEncode sha256 (0x05 :: (s.drop 2).take 20))
  else if isP2PK s then
    .ok (base58CheckEncode sha256
      (0x00 :: (sha256 ((s.drop 1).take (s.length - 2))).take 20))
  else if isP2TR s then
    match convertBits ((s.drop 2).take 32) 8 5 true with
    | .error e => .error e
    | .ok ws => .ok (bech32mEncode "bc" (1 :: ws))
  else .error .unsupportedScriptFormat

/-- The numeric value of a hexadecimal digit character, `none` on a non-hex
character.  Accepts both cases, as hex parsers conventionally do. -/
def hexDigitVal (c : Char) : Option Nat :=
  if '0' ≤ c ∧ c ≤ '9' then some (c.toNat - '0'.toNat)
  else if 'a' ≤ c ∧ c ≤ 'f' then some (c.toNat - 'a'.toNat + 10)
  else if 'A' ≤ c ∧ c ≤ 'F' then some (c.toNat - 'A'.toNat + 10)
  else none

/-- Modelled from the spec: the hex-parsing collaborator of the entry point
(§4.5) — `Buffer.from(hex, "hex")` in src/dist/extract.js line 140 is
delegated to the host and is not part of src/; per the spec it "fails with
`InvalidHexInput` on odd length or non-hex characters", otherwise byte `i`
is the value of the digit pair at positions `2i, 2i+1`. -/
def parseHexChars (cs : List Char) : Except DecodeError (List Nat) :=
  match cs with
  | [] => .ok []
  | [_] => .error .invalidHexInput
  | c1 :: c2 :: rest =>
    match hexDigitVal c1, hexDigitVal c2 with
    | some h, some l =>
      match parseHexChars rest with
      | .error e => .error e
      | .ok bs => .ok ((16 * h + l) :: bs)
    | _, _ => .error .invalidHexInput

/-- The decode entry point (src/dist/extract.js lines 138–142): parse the
hex argument to bytes, then classify.  The hex parser is the spec-modelled
collaborator `parseHexChars`. -/
def decodeAddress (sha256 ripemd160 : List Nat → List Nat) (hex : String) :
    Except DecodeError String :=
  match parseHexChars hex.data with
  | .error e => .error e
  | .ok bytes => decodeScriptPubKey sha256 ripemd160 bytes

/-! ### Arithmetic facts about the embedded operations -/

/-- Oring a value below `2 ^ f` into a left-shifted accumulator is exact
addition: the JS idiom `(acc << fromBits) | value` of line 49. -/
theorem shiftLeft_lor_eq_add {v f : Nat} (a : Nat) (h : v < 2 ^ f) :
    (a <<< f) ||| v = a * 2 ^ f + v := by
  rw [Nat.shiftLeft_eq]
  calc a * 2 ^ f ||| v = 2 ^ f * a ||| v := by rw [Nat.mul_comm]
    _ = 2 ^ f * a + v := (Nat.mul_add_lt_is_or h a).symm
    _ = a * 2 ^ f + v := by rw [Nat.mul_comm]

/-- The source's validity test `value >> fromBits !== 0` detects exactly the
values that do not fit in `fromBits` bits. -/
theorem shiftRight_ne_zero_iff {v f : Nat} : v >>> f ≠ 0 ↔ 2 ^ f ≤ v := by
  rw [Nat.shiftRight_eq_div_pow, ne_eq, Nat.div_eq_zero_iff (Nat.pos_pow_of_pos f (by omega))]
  omega

/-- The mask-after-shift `((acc << (t - bits)) & maxv)` applied in the padding
logic, rewritten arithmetically: only the low `bits` bits of `acc` survive,
moved up by `t - bits`.  Requires `bits ≤ t`. -/
theorem shift_mask_eq {acc bits t : Nat} (h : bits ≤ t) :
    (acc <<< (t - bits)) &&& (2 ^ t - 1) = 2 ^ (t - bits) * (acc % 2 ^ bits) := by
  rw [Nat.shiftLeft_eq, Nat.and_pow_two_sub_one_eq_mod]
  calc acc * 2 ^ (t - bits) % 2 ^ t
      = 2 ^ (t - bits) * acc % (2 ^ (t - bits) * 2 ^ bits) := by
        rw [Nat.mul_comm acc, ← Nat.pow_add, Nat.sub_add_cancel h]
    _ = 2 ^ (t - bits) * (acc % 2 ^ bits) := Nat.mul_mod_mul_left _ _ _

theorem wordVal_nil (init w : Nat) : wordVal init w [] = init := rfl

theorem wordVal_cons (init w v : Nat) (l : List Nat) :
    wordVal init w (v :: l) = wordVal (init * 2 ^ w + v) w l := rfl

theorem wordVal_append (init w : Nat) (l1 l2 : List Nat) :
    wordVal init w (l1 ++ l2) = wordVal (wordVal init w l1) w l2 := by
  simp [wordVal, List.foldl_append]

/-- Splitting the initial accumulator out of a word-list value. -/
theorem wordVal_init (init w : Nat) (l : List Nat) :
    wordVal init w l = init * 2 ^ (w * l.length) + wordVal 0 w l := by
  induction l generalizing init with
  | nil => simp [wordVal]
  | cons v l ih =>
    rw [wordVal_cons, wordVal_cons, ih, ih (0 * 2 ^ w + v)]
    have hlen : w * (v :: l).length = w * l.length + w := by
      simp [List.length_cons, Nat.mul_add]
    rw [hlen, pow_add]
    ring

/-- A list of `w`-bit words denotes a number below `2 ^ (w · length)`. -/
theorem wordVal_lt (w : Nat) (l : List Nat) (h : ∀ v ∈ l, v < 2 ^ w) :
    wordVal 0 w l < 2 ^ (w * l.length) := by
  induction l with
  | nil => simp [wordVal]
  | cons v l ih =>
    have hv : v < 2 ^ w := h v (by simp)
    have hrest := ih (fun u hu => h u (by simp [hu]))
    rw [wordVal_cons, wordVal_init]
    have hlen : w * (v :: l).length = w * l.length + w := by
      simp [List.length_cons, Nat.mul_add]
    rw [hlen, pow_add]
    have h1 : (0 * 2 ^ w + v) * 2 ^ (w * l.length) + wordVal 0 w l
        < (v + 1) * 2 ^ (w * l.length) := by
      simp only [Nat.zero_mul, Nat.zero_add, Nat.add_mul, Nat.one_mul]
      omega
    calc (0 * 2 ^ w + v) * 2 ^ (w * l.length) + wordVal 0 w l
        < (v + 1) * 2 ^ (w * l.length) := h1
      _ ≤ 2 ^ w * 2 ^ (w * l.length) := Nat.mul_le_mul_right _ (by omega)
      _ = 2 ^ (w * l.length) * 2 ^ w := by ring

/-- Uniqueness of quotient and remainder: two base-`Q` digit decompositions
of the same number agree. -/
theorem digit_unique {Q v u r1 r2 : Nat} (hr1 : r1 < Q) (hr2 : r2 < Q)
    (h : v * Q + r1 = u * Q + r2) : v = u ∧ r1 = r2 := by
  have hvu : v = u := by
    by_contra hne
    rcases Nat.lt_or_ge v u with hlt | hge
    · have h1 : (v + 1) * Q ≤ u * Q := Nat.mul_le_mul_right _ (by omega)
      rw [Nat.add_mul, Nat.one_mul] at h1
      omega
    · have hlt : u < v := by omega
      have h1 : (u + 1) * Q ≤ v * Q := Nat.mul_le_mul_right _ (by omega)
      rw [Nat.add_mul, Nat.one_mul] at h1
      omega
  subst hvu
  omega

/-- Two word lists of the same length, with all entries below `2 ^ w`, that
denote the same number are equal: `wordVal 0 w` is injective there. -/
theorem wordVal_inj (w : Nat) : ∀ (l1 l2 : List Nat),
    l1.length = l2.length →
    (∀ v ∈ l1, v < 2 ^ w) → (∀ v ∈ l2, v < 2 ^ w) →
    wordVal 0 w l1 = wordVal 0 w l2 → l1 = l2
  | [], [], _, _, _, _ => rfl
  | [], _ :: _, hlen, _, _, _ => by simp at hlen
  | _ :: _, [], hlen, _, _, _ => by simp at hlen
  | v :: l1, u :: l2, hlen, h1, h2, hval => by
    have hlen' : l1.length = l2.length := by simpa using hlen
    have hv1 : wordVal 0 w (v :: l1)
        = v * 2 ^ (w * l1.length) + wordVal 0 w l1 := by
      rw [wordVal_cons, wordVal_init]; ring_nf
    have hv2 : wordVal 0 w (u :: l2)
        = u * 2 ^ (w * l2.length) + wordVal 0 w l2 := by
      rw [wordVal_cons, wordVal_init]; ring_nf
    have hb1 : wordVal 0 w l1 < 2 ^ (w * l1.length) :=
      wordVal_lt w l1 (fun x hx => h1 x (by simp [hx]))
    have hb2 : wordVal 0 w l2 < 2 ^ (w * l2.length) :=
      wordVal_lt w l2 (fun x hx => h2 x (by simp [hx]))
    rw [hv1, hv2, hlen'] at hval
    rw [hlen'] at hb1
    obtain ⟨hvu, hrest⟩ := digit_unique hb1 hb2 hval
    subst hvu
    have := wordVal_inj w l1 l2 hlen'
      (fun x hx => h1 x (by simp [hx])) (fun x hx => h2 x (by simp [hx])) hrest
    rw [this]

/-! ### The while loop: characterisation of `pushWords` -/

/-- The fuel argument of `pushWordsGo` is irrelevant once it covers `bits`. -/
theorem pushWordsGo_congr : ∀ (f1 f2 acc bits t : Nat), bits ≤ f1 → bits ≤ f2 →
    pushWordsGo f1 acc bits t = pushWordsGo f2 acc bits t
  | 0, 0, _, _, _, _, _ => rfl
  | 0, _ + 1, acc, bits, t, h1, _ => by
    have hb : bits = 0 := by omega
    subst hb
    simp only [pushWordsGo]
    have : ¬(0 < t ∧ t ≤ 0) := by omega
    rw [if_neg this]
  | _ + 1, 0, acc, bits, t, _, h2 => by
    have hb : bits = 0 := by omega
    subst hb
    simp only [pushWordsGo]
    have : ¬(0 < t ∧ t ≤ 0) := by omega
    rw [if_neg this]
  | f1 + 1, f2 + 1, acc, bits, t, h1, h2 => by
    simp only [pushWordsGo]
    by_cases h : 0 < t ∧ t ≤ bits
    · rw [if_pos h, if_pos h]
      have := pushWordsGo_congr f1 f2 acc (bits - t) t (by omega) (by omega)
      rw [this]
    · rw [if_neg h, if_neg h]

/-- `pushWords` satisfies the defining equation of the source's while loop. -/
theorem pushWords_unfold (acc bits t : Nat) :
    pushWords acc bits t
      = if 0 < t ∧ t ≤ bits then
          ((acc >>> (bits - t)) &&& (2 ^ t - 1)) :: pushWords acc (bits - t) t
        else [] := by
  unfold pushWords
  cases bits with
  | zero =>
    simp only [pushWordsGo]
    have : ¬(0 < t ∧ t ≤ 0) := by omega
    rw [if_neg this]
  | succ b =>
    simp only [pushWordsGo]
    by_cases h : 0 < t ∧ t ≤ b + 1
    · rw [if_pos h, if_pos h]
      have := pushWordsGo_congr b (b + 1 - t) acc (b + 1 - t) t (by omega) (by omega)
      rw [this]
    · rw [if_neg h, if_neg h]

/-- What the while loop emits: `bits / t` words, all below `2 ^ t`, whose
concatenated bit stream together with the `bits % t` leftover bits of the
accumulator reconstitutes the low `bits` bits of the accumulator. -/
theorem pushWords_spec (t : Nat) (ht : 0 < t) :
    ∀ (bits acc : Nat),
      (pushWords acc bits t).length * t + bits % t = bits
    ∧ (∀ w ∈ pushWords acc bits t, w < 2 ^ t)
    ∧ wordVal 0 t (pushWords acc bits t) * 2 ^ (bits % t) + acc % 2 ^ (bits % t)
        = acc % 2 ^ bits := by
  intro bits
  induction bits using Nat.strong_induction_on with
  | _ bits ih =>
    intro acc
    rw [pushWords_unfold]
    by_cases h : 0 < t ∧ t ≤ bits
    · rw [if_pos h]
      obtain ⟨ihlen, ihmem, ihval⟩ := ih (bits - t) (by omega) acc
      have hmod : (bits - t) % t = bits % t := by
        conv_rhs => rw [show bits = (bits - t) + t by omega]
        rw [Nat.add_mod_right]
      rw [hmod] at ihlen ihval
      have hw : (acc >>> (bits - t)) &&& (2 ^ t - 1)
          = acc / 2 ^ (bits - t) % 2 ^ t := by
        rw [Nat.shiftRight_eq_div_pow, Nat.and_pow_two_sub_one_eq_mod]
      refine ⟨?_, ?_, ?_⟩
      · simp only [List.length_cons]
        rw [Nat.add_mul, Nat.one_mul]
        have hle : bits % t ≤ bits - t := by
          rw [← hmod]; exact Nat.mod_le _ _
        omega
      · intro w hw'
        rcases List.mem_cons.mp hw' with hEq | hmem
        · subst hEq
          rw [hw]
          exact Nat.mod_lt _ (Nat.pos_pow_of_pos _ (by omega))
        · exact ihmem w hmem
      · have hlen' : t * (pushWords acc (bits - t) t).length
            = bits - t - bits % t := by
          rw [Nat.mul_comm]
          omega
        rw [wordVal_cons, wordVal_init]
        simp only [Nat.zero_mul, Nat.zero_add]
        rw [hlen']
        have hle : bits % t ≤ bits - t := by
          rw [← hmod]; exact Nat.mod_le _ _
        have hsplit : acc % 2 ^ bits
            = acc % 2 ^ (bits - t) + 2 ^ (bits - t) * (acc / 2 ^ (bits - t) % 2 ^ t) := by
          conv_lhs => rw [show bits = (bits - t) + t by omega]
          rw [pow_add]
          exact Nat.mod_mul
        rw [hsplit, ← ihval, hw]
        have hpow : 2 ^ (bits - t - bits % t) * 2 ^ (bits % t) = 2 ^ (bits - t) := by
          rw [← pow_add]
          congr 1
          omega
        calc (acc / 2 ^ (bits - t) % 2 ^ t * 2 ^ (bits - t - bits % t)
                + wordVal 0 t (pushWords acc (bits - t) t)) * 2 ^ (bits % t)
              + acc % 2 ^ (bits % t)
            = acc / 2 ^ (bits - t) % 2 ^ t
                * (2 ^ (bits - t - bits % t) * 2 ^ (bits % t))
              + (wordVal 0 t (pushWords acc (bits - t) t) * 2 ^ (bits % t)
                + acc % 2 ^ (bits % t)) := by ring
          _ = acc / 2 ^ (bits - t) % 2 ^ t * 2 ^ (bits - t)
              + (wordVal 0 t (pushWords acc (bits - t) t) * 2 ^ (bits % t)
                + acc % 2 ^ (bits % t)) := by rw [hpow]
          _ = wordVal 0 t (pushWords acc (bits - t) t) * 2 ^ (bits % t)
                + acc % 2 ^ (bits % t)
              + 2 ^ (bits - t) * (acc / 2 ^ (bits - t) % 2 ^ t) := by ring
    · rw [if_neg h]
      have hlt : bits % t = bits := by
        rcases Nat.lt_or_ge bits t with hbt | hbt
        · exact Nat.mod_eq_of_lt hbt
        · omega
      refine ⟨by simpa using hlt, by simp, ?_⟩
      rw [hlt]
      simp [wordVal]

/-! ### The main loop: characterisation of `convertBitsLoop` -/

/-- An out-of-range value anywhere in the input makes the loop throw
`Invalid value`, regardless of the state it is reached in. -/
theorem convertBitsLoop_err (f t : Nat) : ∀ (data : List Nat) (acc bits : Nat),
    (∃ v ∈ data, 2 ^ f ≤ v) →
    convertBitsLoop data f t acc bits = .error .invalidInputValue
  | v :: rest, acc, bits, h => by
    simp only [convertBitsLoop]
    by_cases hv : v >>> f ≠ 0
    · rw [if_pos hv]
    · rw [if_neg hv]
      have hvlt : v < 2 ^ f := by
        rw [shiftRight_ne_zero_iff] at hv
        omega
      have hrest : ∃ u ∈ rest, 2 ^ f ≤ u := by
        rcases h with ⟨u, hu, hule⟩
        rcases List.mem_cons.mp hu with rfl | hmem
        · omega
        · exact ⟨u, hmem, hule⟩
      rw [convertBitsLoop_err f t rest _ _ hrest]
  | [], _, _, h => by simp at h

/-- On all-valid input the loop succeeds, and its final accumulator and bit
count are the folds of the two state updates. -/
theorem convertBitsLoop_ok_fold (f t : Nat) : ∀ (data : List Nat) (acc bits : Nat),
    (∀ v ∈ data, v < 2 ^ f) →
    ∃ W, convertBitsLoop data f t acc bits
      = .ok (W, data.foldl (fun a v => (a <<< f) ||| v) acc,
             data.foldl (fun b _ => (b + f) % t) bits)
  | [], acc, bits, _ => ⟨[], rfl⟩
  | v :: rest, acc, bits, h => by
    have hv : v < 2 ^ f := h v (by simp)
    have h0 : ¬(v >>> f ≠ 0) := by
      rw [shiftRight_ne_zero_iff]
      omega
    obtain ⟨W, hW⟩ := convertBitsLoop_ok_fold f t rest ((acc <<< f) ||| v)
      ((bits + f) % t) (fun u hu => h u (by simp [hu]))
    refine ⟨pushWords ((acc <<< f) ||| v) (bits + f) t ++ W, ?_⟩
    simp only [convertBitsLoop, if_neg h0, hW, List.foldl_cons]

/-- Full characterisation of the loop on valid input, starting from a state
whose bit count is already below `t` (as every reachable state is): the final
accumulator is the bit stream consumed so far, the final bit count is the
total bit count modulo `t`, and the emitted words carry exactly the consumed
stream above the leftover bits. -/
theorem convertBitsLoop_spec (f t : Nat) (ht : 0 < t) :
    ∀ (data : List Nat) (acc bits : Nat), bits < t →
    (∀ v ∈ data, v < 2 ^ f) →
    ∃ W, convertBitsLoop data f t acc bits
        = .ok (W, wordVal acc f data, (bits + data.length * f) % t)
      ∧ (∀ w ∈ W, w < 2 ^ t)
      ∧ W.length * t + (bits + data.length * f) % t = bits + data.length * f
      ∧ wordVal 0 t W * 2 ^ ((bits + data.length * f) % t)
          + wordVal (acc % 2 ^ bits) f data % 2 ^ ((bits + data.length * f) % t)
        = wordVal (acc % 2 ^ bits) f data
  | [], acc, bits, hbt, _ => by
    have hmod : (bits + 0 * f) % t = bits := by
      simpa using Nat.mod_eq_of_lt hbt
    refine ⟨[], ?_, by simp, ?_, ?_⟩
    · simp only [convertBitsLoop, List.length_nil, wordVal_nil, hmod]
    · simpa using hmod
    · simp only [List.length_nil, hmod, wordVal_nil]
      simp [Nat.mod_mod_of_dvd]
  | v :: rest, acc, bits, hbt, h => by
    have hv : v < 2 ^ f := h v (by simp)
    have h0 : ¬(v >>> f ≠ 0) := by
      rw [shiftRight_ne_zero_iff]
      omega
    obtain ⟨Wr, heq, hmem, hlen, hval⟩ := convertBitsLoop_spec f t ht rest
      ((acc <<< f) ||| v) ((bits + f) % t) (Nat.mod_lt _ ht)
      (fun u hu => h u (by simp [hu]))
    obtain ⟨pwlen, pwmem, pwval⟩ :=
      pushWords_spec t ht (bits + f) ((acc <<< f) ||| v)
    have hacc : (acc <<< f) ||| v = acc * 2 ^ f + v := shiftLeft_lor_eq_add acc hv
    -- the final bit count of the combined run
    have hB : ((bits + f) % t + rest.length * f) % t
        = (bits + (v :: rest).length * f) % t := by
      rw [Nat.mod_add_mod, List.length_cons, Nat.add_mul, Nat.one_mul]
      congr 1
      omega
    -- the final accumulator of the combined run
    have hA : wordVal ((acc <<< f) ||| v) f rest = wordVal acc f (v :: rest) := by
      rw [wordVal_cons, hacc]
    refine ⟨pushWords ((acc <<< f) ||| v) (bits + f) t ++ Wr, ?_, ?_, ?_, ?_⟩
    · simp only [convertBitsLoop, if_neg h0, heq, hB, hA]
    · intro w hw
      rcases List.mem_append.mp hw with hw | hw
      · exact pwmem w hw
      · exact hmem w hw
    · rw [List.length_append, Nat.add_mul, ← hB, List.length_cons, Nat.add_mul,
        Nat.one_mul]
      omega
    · -- the bit-stream equation
      rw [← hB]
      set β := (bits + f) % t with hβ
      set B := (β + rest.length * f) % t with hBdef
      set PW := pushWords ((acc <<< f) ||| v) (bits + f) t with hPW
      set A' := (acc <<< f) ||| v with hA'
      -- (K1) the low `bits + f` bits of the new accumulator are the consumed stream
      have hK1 : A' % 2 ^ (bits + f) = acc % 2 ^ bits * 2 ^ f + v := by
        rw [hacc, pow_add, Nat.mul_comm (2 ^ bits) (2 ^ f), Nat.mod_mul]
        have h1 : (acc * 2 ^ f + v) % 2 ^ f = v := by
          rw [Nat.add_comm, Nat.add_mul_mod_self_right]
          exact Nat.mod_eq_of_lt hv
        have h2 : (acc * 2 ^ f + v) / 2 ^ f = acc := by
          rw [Nat.mul_comm acc, Nat.mul_add_div (Nat.pos_pow_of_pos _ (by omega)),
            Nat.div_eq_of_lt hv]
          omega
        rw [h1, h2]
        ring
      -- (K2) the consumed stream, spelled with the new accumulator
      have hK2 : wordVal (acc % 2 ^ bits) f (v :: rest)
          = wordVal (A' % 2 ^ (bits + f)) f rest := by
        rw [wordVal_cons, hK1]
      -- (K3) peel the emitted words off the consumed stream
      have hK3 : wordVal (A' % 2 ^ (bits + f)) f rest
          = wordVal 0 t PW * 2 ^ (f * rest.length + β)
            + wordVal (A' % 2 ^ β) f rest := by
        rw [wordVal_init (A' % 2 ^ (bits + f)), ← pwval,
          wordVal_init (A' % 2 ^ β), pow_add]
        ring
      -- (K4) the leftover of the combined run is below the peeled part
      have hBle : B ≤ f * rest.length + β := by
        rw [hBdef, Nat.mul_comm f]
        have := Nat.mod_le (β + rest.length * f) t
        omega
      have hK4 : wordVal (acc % 2 ^ bits) f (v :: rest) % 2 ^ B
          = wordVal (A' % 2 ^ β) f rest % 2 ^ B := by
        rw [hK2, hK3]
        have hdvd : wordVal 0 t PW * 2 ^ (f * rest.length + β)
            = wordVal 0 t PW * 2 ^ (f * rest.length + β - B) * 2 ^ B := by
          rw [Nat.mul_assoc, ← pow_add]
          congr 2
          omega
        rw [hdvd, Nat.add_comm, Nat.add_mul_mod_self_right]
      -- assemble
      have hWr : wordVal 0 t (PW ++ Wr)
          = wordVal 0 t PW * 2 ^ (t * Wr.length) + wordVal 0 t Wr := by
        rw [wordVal_append, wordVal_init]
      rw [hWr, hK4, hK2, hK3]
      have hexp : t * Wr.length + B = f * rest.length + β := by
        rw [Nat.mul_comm t, Nat.mul_comm f]
        omega
      calc (wordVal 0 t PW * 2 ^ (t * Wr.length) + wordVal 0 t Wr) * 2 ^ B
            + wordVal (A' % 2 ^ β) f rest % 2 ^ B
          = wordVal 0 t PW * 2 ^ (t * Wr.length + B)
            + (wordVal 0 t Wr * 2 ^ B + wordVal (A' % 2 ^ β) f rest % 2 ^ B) := by
            rw [pow_add]
            ring
        _ = wordVal 0 t PW * 2 ^ (t * Wr.length + B)
            + wordVal (A' % 2 ^ β) f rest := by rw [hval]
        _ = wordVal 0 t PW * 2 ^ (f * rest.length + β)
            + wordVal (A' % 2 ^ β) f rest := by rw [hexp]

/-! ### `convertBits` in the two modes the program uses -/

/-- Packing with `pad = true` on valid input always succeeds; the output words
are `t`-bit values whose concatenated bit stream is the input stream followed
by `(t - |input bits| % t) % t` zero padding bits. -/
theorem convertBits_pad_ok (f t : Nat) (ht : 0 < t) (data : List Nat)
    (hv : ∀ v ∈ data, v < 2 ^ f) :
    ∃ V, convertBits data f t true = .ok V
      ∧ (∀ w ∈ V, w < 2 ^ t)
      ∧ V.length * t = data.length * f + (t - data.length * f % t) % t
      ∧ wordVal 0 t V = wordVal 0 f data * 2 ^ ((t - data.length * f % t) % t) := by
  obtain ⟨W, heq, hmem, hlen, hval⟩ :=
    convertBitsLoop_spec f t ht data 0 0 ht hv
  simp only [Nat.zero_add, pow_zero, Nat.mod_one, Nat.zero_mod] at heq hlen hval
  set B := data.length * f % t with hBdef
  have hBlt : B < t := Nat.mod_lt _ ht
  by_cases hB0 : 0 < B
  · have hpad : (t - data.length * f % t) % t = t - B := by
      rw [← hBdef]
      exact Nat.mod_eq_of_lt (by omega)
    refine ⟨W ++ [(wordVal 0 f data <<< (t - B)) &&& (2 ^ t - 1)], ?_, ?_, ?_, ?_⟩
    · simp only [convertBits, heq, if_pos hB0, if_true]
    · intro w hw
      rcases List.mem_append.mp hw with hw | hw
      · exact hmem w hw
      · rcases List.mem_singleton.mp hw with rfl
        rw [Nat.and_pow_two_sub_one_eq_mod]
        exact Nat.mod_lt _ (Nat.pos_pow_of_pos _ (by omega))
    · rw [hpad, List.length_append, List.length_singleton, Nat.add_mul, Nat.one_mul]
      omega
    · rw [hpad]
      have hpw : (wordVal 0 f data <<< (t - B)) &&& (2 ^ t - 1)
          = 2 ^ (t - B) * (wordVal 0 f data % 2 ^ B) :=
        shift_mask_eq (by omega)
      have happ : wordVal 0 t (W ++ [(wordVal 0 f data <<< (t - B)) &&& (2 ^ t - 1)])
          = wordVal 0 t W * 2 ^ t + ((wordVal 0 f data <<< (t - B)) &&& (2 ^ t - 1)) := by
        rw [wordVal_append, wordVal_cons, wordVal_nil]
      rw [happ, hpw]
      have hsplit : (2:Nat) ^ t = 2 ^ B * 2 ^ (t - B) := by
        rw [← pow_add]
        congr 1
        omega
      calc wordVal 0 t W * 2 ^ t + 2 ^ (t - B) * (wordVal 0 f data % 2 ^ B)
          = (wordVal 0 t W * 2 ^ B + wordVal 0 f data % 2 ^ B) * 2 ^ (t - B) := by
            rw [hsplit]
            ring
        _ = wordVal 0 f data * 2 ^ (t - B) := by rw [hval]
  · have hB : B = 0 := by omega
    have hpad : (t - data.length * f % t) % t = 0 := by
      rw [← hBdef, hB, Nat.sub_zero, Nat.mod_self]
    refine ⟨W, ?_, hmem, ?_, ?_⟩
    · simp only [convertBits, heq, if_neg hB0, if_true]
    · rw [hpad, hB] at *
      omega
    · rw [hpad, pow_zero, Nat.mul_one]
      rw [hB, pow_zero, Nat.mul_one, Nat.mod_one] at hval
      omega

/-- Unpacking with `pad = false` succeeds exactly when the leftover bit count
is short and the leftover bits are zero; the output then carries the input
stream with the padding stripped. -/
theorem convertBits_nopad_ok (g h : Nat) (hh : 0 < h) (W : List Nat)
    (hv : ∀ v ∈ W, v < 2 ^ g)
    (hB : W.length * g % h < g)
    (hM : wordVal 0 g W % 2 ^ (W.length * g % h) = 0) :
    ∃ U, convertBits W g h false = .ok U
      ∧ (∀ u ∈ U, u < 2 ^ h)
      ∧ U.length * h + W.length * g % h = W.length * g
      ∧ wordVal 0 h U * 2 ^ (W.length * g % h) = wordVal 0 g W := by
  obtain ⟨U, heq, hmem, hlen, hval⟩ :=
    convertBitsLoop_spec g h hh W 0 0 hh hv
  simp only [Nat.zero_add, pow_zero, Nat.mod_one, Nat.zero_mod] at heq hlen hval
  set B := W.length * g % h with hBdef
  have hBlt : B < h := Nat.mod_lt _ hh
  have hmask : (wordVal 0 g W <<< (h - B)) &&& (2 ^ h - 1) = 0 := by
    rw [shift_mask_eq (by omega), hM, Nat.mul_zero]
  have hcond : ¬(g ≤ B ∨ (wordVal 0 g W <<< (h - B)) &&& (2 ^ h - 1) ≠ 0) := by
    push_neg
    exact ⟨by omega, by simpa using hmask⟩
  refine ⟨U, ?_, hmem, hlen, ?_⟩
  · simp only [convertBits, heq, if_neg hcond]
    rfl
  · rw [hM] at hval
    omega

/-- Round trip: packing bytes into 5-bit words with padding and unpacking
them again without padding restores the bytes. -/
theorem convertBits_pack_unpack (data : List Nat) (hv : ∀ v ∈ data, v < 2 ^ 8) :
    ∃ V, convertBits data 8 5 true = .ok V ∧ convertBits V 5 8 false = .ok data := by
  obtain ⟨V, heq, hmem, hlen, hval⟩ := convertBits_pad_ok 8 5 (by omega) data hv
  set p := (5 - data.length * 8 % 5) % 5 with hpdef
  have hp5 : p < 5 := Nat.mod_lt _ (by omega)
  have hVbits : V.length * 5 = data.length * 8 + p := hlen
  have hVB : V.length * 5 % 8 = p := by omega
  obtain ⟨U, ueq, umem, ulen, uval⟩ := convertBits_nopad_ok 5 8 (by omega) V hmem
    (by omega) (by rw [hVB, hval]; exact Nat.mul_mod_left _ _)
  have hUlen : U.length = data.length := by omega
  have hUval : wordVal 0 8 U = wordVal 0 8 data := by
    rw [hVB, hval] at uval
    have hppos : (0:Nat) < 2 ^ p := Nat.pos_pow_of_pos _ (by omega)
    exact Nat.eq_of_mul_eq_mul_right hppos uval
  have hU : U = data := wordVal_inj 8 U data hUlen umem hv hUval
  exact ⟨V, heq, by rw [← hU]; exact ueq⟩

/-- On valid input, `convertBits` reduces to its padding logic applied to the
loop's final state, written with the state folds `cbFinalAcc`/`cbFinalBits`
and the emitted words `cbWords`. -/
theorem convertBits_eq_of_valid (data : List Nat) (f t : Nat) (pad : Bool)
    (hv : ∀ v ∈ data, v < 2 ^ f) :
    convertBits data f t pad =
      if pad then
        if 0 < cbFinalBits data f t then
          .ok (cbWords data f t
            ++ [(cbFinalAcc data f <<< (t - cbFinalBits data f t)) &&& (2 ^ t - 1)])
        else .ok (cbWords data f t)
      else if f ≤ cbFinalBits data f t
          ∨ (cbFinalAcc data f <<< (t - cbFinalBits data f t)) &&& (2 ^ t - 1) ≠ 0 then
        .error .invalidPadding
      else .ok (cbWords data f t) := by
  obtain ⟨W, hW⟩ := convertBitsLoop_ok_fold f t data 0 0 hv
  have hcw : cbWords data f t = W := by
    simp only [cbWords, hW]
  simp only [convertBits, hW, cbFinalAcc, cbFinalBits, hcw]

/-- On input containing an out-of-range value, `convertBits` fails with the
`Invalid value` error. -/
theorem convertBits_err_of_invalid (data : List Nat) (f t : Nat) (pad : Bool)
    (hbad : ∃ v ∈ data, 2 ^ f ≤ v) :
    convertBits data f t pad = .error .invalidInputValue := by
  simp only [convertBits, convertBitsLoop_err f t data 0 0 hbad]

/-! ### Claim theorems -/

/-- C5: `convertBits` fails if and only if some input value does not fit in
`fromBits` bits (`InvalidInputValue`), or `pad` is false and the leftover
state after consuming all inputs has bit-count `≥ fromBits` or non-zero
left-shifted masked bits (`InvalidPadding`); in all other cases it succeeds,
and with `pad = true` a positive leftover is emitted as one final word
left-shifted to fill `toBits` and masked. -/
theorem convertBits_failure_characterisation (data : List Nat) (f t : Nat)
    (pad : Bool) :
    (convertBits data f t pad = .error .invalidInputValue ↔ ∃ v ∈ data, 2 ^ f ≤ v)
  ∧ (convertBits data f t pad = .error .invalidPadding ↔
      (∀ v ∈ data, v < 2 ^ f) ∧ pad = false
      ∧ (f ≤ cbFinalBits data f t
        ∨ (cbFinalAcc data f <<< (t - cbFinalBits data f t)) &&& (2 ^ t - 1) ≠ 0))
  ∧ ((∀ v ∈ data, v < 2 ^ f) →
      (pad = true ∨ (cbFinalBits data f t < f
        ∧ (cbFinalAcc data f <<< (t - cbFinalBits data f t)) &&& (2 ^ t - 1) = 0)) →
      ∃ ws, convertBits data f t pad = .ok ws)
  ∧ ((∀ v ∈ data, v < 2 ^ f) → 0 < cbFinalBits data f t →
      convertBits data f t true = .ok (cbWords data f t
        ++ [(cbFinalAcc data f <<< (t - cbFinalBits data f t)) &&& (2 ^ t - 1)])) := by
  by_cases hval : ∀ v ∈ data, v < 2 ^ f
  · have heq := convertBits_eq_of_valid data f t pad hval
    have heqT := convertBits_eq_of_valid data f t true hval
    refine ⟨?_, ?_, ?_, ?_⟩
    · rw [heq]
      constructor
      · intro h
        split_ifs at h <;> simp_all
      · rintro ⟨v, hv, hle⟩
        exact absurd (hval v hv) (by omega)
    · rw [heq]
      constructor
      · intro h
        split_ifs at h with h1 h2 h3 <;> simp_all
      · rintro ⟨-, hpad, hcond⟩
        subst hpad
        simp only [Bool.false_eq_true, if_false, if_pos hcond]
    · intro _ hcase
      rw [heq]
      rcases hcase with hpad | ⟨hlt, hmask⟩
      · subst hpad
        simp only [if_true]
        split_ifs <;> exact ⟨_, rfl⟩
      · split_ifs with h1 h2 h3
        · exact ⟨_, rfl⟩
        · exact ⟨_, rfl⟩
        · exact absurd h3 (by push_neg; exact ⟨by omega, by simpa using hmask⟩)
        · exact ⟨_, rfl⟩
    · intro _ hpos
      rw [heqT, if_pos rfl, if_pos hpos]
  · have hbad : ∃ v ∈ data, 2 ^ f ≤ v := by
      push_neg at hval
      obtain ⟨v, hv, hle⟩ := hval
      exact ⟨v, hv, by omega⟩
    have herr := convertBits_err_of_invalid data f t pad hbad
    refine ⟨?_, ?_, ?_, ?_⟩
    · rw [herr]
      simp [hbad]
    · rw [herr]
      constructor
      · intro h
        simp at h
      · rintro ⟨hval', -, -⟩
        obtain ⟨v, hv, hle⟩ := hbad
        exact absurd (hval' v hv) (by omega)
    · intro hval' _
      obtain ⟨v, hv, hle⟩ := hbad
      exact absurd (hval' v hv) (by omega)
    · intro hval' _
      obtain ⟨v, hv, hle⟩ := hbad
      exact absurd (hval' v hv) (by omega)

/-- Witness for C5 at concrete inputs: an out-of-range value yields
`InvalidInputValue`, and an unpaddable leftover with `pad = false` yields
`InvalidPadding`. -/
theorem convertBits_failure_characterisation_witness :
    convertBits [300] 8 5 true = .error .invalidInputValue
  ∧ convertBits [1] 8 5 false = .error .invalidPadding := by
  constructor
  · exact (convertBits_failure_characterisation [300] 8 5 true).1.mpr
      ⟨300, by decide, by decide⟩
  · exact (convertBits_failure_characterisation [1] 8 5 false).2.1.mpr
      ⟨by decide, rfl, by decide⟩

/-- C6: packing any byte sequence from 8-bit to 5-bit words with `pad = true`
and unpacking the result from 5-bit back to 8-bit words with `pad = false`
succeeds and reproduces the original bytes exactly. -/
theorem convertBits_roundtrip (data : List Nat) (hv : ∀ v ∈ data, v < 256) :
    ∃ V, convertBits data 8 5 true = .ok V
      ∧ convertBits V 5 8 false = .ok data := by
  have hv' : ∀ v ∈ data, v < 2 ^ 8 := by
    intro v hvmem
    have := hv v hvmem
    omega
  exact convertBits_pack_unpack data hv'

/-- Witness for C6 at a concrete byte sequence. -/
theorem convertBits_roundtrip_witness :
    ∃ V, convertBits [222, 173, 190, 239] 8 5 true = .ok V
      ∧ convertBits V 5 8 false = .ok [222, 173, 190, 239] :=
  convertBits_roundtrip [222, 173, 190, 239] (by decide)

/-- The character data of a Bech32-family encoding with hrp `"bc"`:
`b`, `c`, the separator `1`, then the alphabet-mapped data and checksum. -/
theorem bech32EncodeGeneric_bc_data (const : Nat) (data : List Nat) :
    (bech32EncodeGeneric const "bc" data).data
      = 'b' :: 'c' :: '1' :: (data ++ bech32CreateChecksum const "bc".data data).map
          (fun v => bech32Charset.getD v 'q') := by
  simp [bech32EncodeGeneric, String.data_append]

/-- A Bech32m encoding of witness version 1 under hrp `"bc"` starts with
`bc1p`. -/
theorem bech32m_bc1p (ws : List Nat) :
    ∃ tl, (bech32mEncode "bc" (1 :: ws)).data = 'b' :: 'c' :: '1' :: 'p' :: tl :=
  ⟨(ws ++ bech32CreateChecksum 0x2bc830a3 "bc".data (1 :: ws)).map
      (fun v => bech32Charset.getD v 'q'),
    by
      rw [bech32mEncode, bech32EncodeGeneric_bc_data, List.cons_append,
        List.map_cons]
      have hp : bech32Charset.getD 1 'q' = 'p' := by decide
      rw [hp]⟩

/-- A Bech32 encoding of witness version 0 under hrp `"bc"` starts with
`bc1q`. -/
theorem bech32_bc1q (ws : List Nat) :
    ∃ tl, (bech32Encode "bc" (0 :: ws)).data = 'b' :: 'c' :: '1' :: 'q' :: tl :=
  ⟨(ws ++ bech32CreateChecksum 1 "bc".data (0 :: ws)).map
      (fun v => bech32Charset.getD v 'q'),
    by
      rw [bech32Encode, bech32EncodeGeneric_bc_data, List.cons_append,
        List.map_cons]
      have hq : bech32Charset.getD 0 'q' = 'q' := by decide
      rw [hq]⟩

/-- A Base58 encoding of a payload with leading zero byte starts with `'1'`. -/
theorem base58Encode_zero_head (l : List Nat) :
    (base58Encode (0 :: l)).data = '1' ::
      (List.replicate (l.takeWhile (· == 0)).length '1'
        ++ natToB58 ((0 :: l).foldl (fun a b => a * 256 + b) 0)) := by
  simp [base58Encode, List.takeWhile_cons, List.replicate_succ]

/-- C2: the classifier evaluates the six templates in the precedence order
P2PKH, P2SH, P2PK, P2TR, P2WSH, OP_RETURN, returns the result of the first
template whose predicate matches, and fails with `UnsupportedScriptFormat`
on a script matching none of the six. -/
theorem decode_first_match (sha256 ripemd160 : List Nat → List Nat)
    (s : List Nat) :
    (isP2PKH s = true →
      decodeScriptPubKey sha256 ripemd160 s
        = .ok (base58CheckEncode sha256 (0x00 :: (s.drop 3).take 20)))
  ∧ (isP2PKH s = false → isP2SH s = true →
      decodeScriptPubKey sha256 ripemd160 s
        = .ok (base58CheckEncode sha256 (0x05 :: (s.drop 2).take 20)))
  ∧ (isP2PKH s = false → isP2SH s = false → isP2PK s = true →
      decodeScriptPubKey sha256 ripemd160 s
        = .ok (base58CheckEncode sha256
            (0x00 :: ripemd160 (sha256 ((s.drop 1).take (s.length - 2))))))
  ∧ (isP2PKH s = false → isP2SH s = false → isP2PK s = false → isP2TR s = true →
      decodeScriptPubKey sha256 ripemd160 s
        = (convertBits ((s.drop 2).take 32) 8 5 true).map
            (fun ws => bech32mEncode "bc" (1 :: ws)))
  ∧ (isP2PKH s = false → isP2SH s = false → isP2PK s = false → isP2TR s = false →
      isP2WSH s = true →
      decodeScriptPubKey sha256 ripemd160 s
        = (convertBits ((s.drop 2).take 32) 8 5 true).map
            (fun ws => bech32Encode "bc" (0 :: ws)))
  ∧ (isP2PKH s = false → isP2SH s = false → isP2PK s = false → isP2TR s = false →
      isP2WSH s = false → isOpReturn s = true →
      decodeScriptPubKey sha256 ripemd160 s
        = .ok ("OP_RETURN: " ++ hexOfBytes ((s.drop 2).take (s.getD 1 0))))
  ∧ (isP2PKH s = false → isP2SH s = false → isP2PK s = false → isP2TR s = false →
      isP2WSH s = false → isOpReturn s = false →
      decodeScriptPubKey sha256 ripemd160 s = .error .unsupportedScriptFormat) := by
  refine ⟨?_, ?_, ?_, ?_, ?_, ?_, ?_⟩
  · intro h1
    simp [decodeScriptPubKey, h1]
  · intro h1 h2
    simp [decodeScriptPubKey, h1, h2]
  · intro h1 h2 h3
    simp [decodeScriptPubKey, h1, h2, h3]
  · intro h1 h2 h3 h4
    simp only [decodeScriptPubKey, h1, h2, h3, h4, Bool.false_eq_true, if_false,
      if_true]
    cases hcb : convertBits ((s.drop 2).take 32) 8 5 true <;>
      simp [hcb, Except.map]
  · intro h1 h2 h3 h4 h5
    simp only [decodeScriptPubKey, h1, h2, h3, h4, h5, Bool.false_eq_true,
      if_false, if_true]
    cases hcb : convertBits ((s.drop 2).take 32) 8 5 true <;>
      simp [hcb, Except.map]
  · intro h1 h2 h3 h4 h5 h6
    simp [decodeScriptPubKey, h1, h2, h3, h4, h5, h6]
  · intro h1 h2 h3 h4 h5 h6
    simp [decodeScriptPubKey, h1, h2, h3, h4, h5, h6]

/-- Witness for C2: the spec's unmatched examples — the single byte `0x00`
and the empty script — fail with `UnsupportedScriptFormat`. -/
theorem decode_first_match_witness :
    decodeScriptPubKey (fun _ => []) (fun _ => []) [0]
      = .error .unsupportedScriptFormat
  ∧ decodeScriptPubKey (fun _ => []) (fun _ => []) []
      = .error .unsupportedScriptFormat := by
  constructor
  · exact (decode_first_match (fun _ => []) (fun _ => []) [0]).2.2.2.2.2.2
      (by decide) (by decide) (by decide) (by decide) (by decide) (by decide)
  · exact (decode_first_match (fun _ => []) (fun _ => []) []).2.2.2.2.2.2
      (by decide) (by decide) (by decide) (by decide) (by decide) (by decide)

/-- C1: a script of length ≥ 35 with first byte 0x41 and last byte 0xac,
not matching the P2PKH or P2SH templates, decodes to the Base58Check
encoding of version byte 0x00 followed by RIPEMD160(SHA256(pubkey)), where
pubkey is bytes[1 : len-1]. -/
theorem decode_p2pk (sha256 ripemd160 : List Nat → List Nat) (s : List Nat)
    (hlen : 35 ≤ s.length) (h0 : s.getD 0 0 = 0x41)
    (hlast : s.getD (s.length - 1) 0 = 0xac)
    (hpkh : isP2PKH s = false) (hsh : isP2SH s = false) :
    decodeScriptPubKey sha256 ripemd160 s
      = .ok (base58CheckEncode sha256
          (0x00 :: ripemd160 (sha256 ((s.drop 1).take (s.length - 2))))) := by
  have h3 : isP2PK s = true := by
    simp only [isP2PK]
    rw [h0, hlast]
    simp [hlen]
  simp [decodeScriptPubKey, hpkh, hsh, h3]

/-- Witness for C1 at a concrete 35-byte P2PK script with concrete stand-ins
for the two hash collaborators. -/
theorem decode_p2pk_witness :
    decodeScriptPubKey (fun _ => [1, 2]) (fun _ => [3])
        (0x41 :: (List.replicate 33 7 ++ [0xac]))
      = .ok (base58CheckEncode (fun _ => [1, 2]) (0x00 :: [3])) := by
  have h := decode_p2pk (fun _ => [1, 2]) (fun _ => [3])
    (0x41 :: (List.replicate 33 7 ++ [0xac]))
    (by decide) (by decide) (by decide) (by decide) (by decide)
  exact h

/-- C3: a 34-byte script starting 0x00 0x20 (matching no earlier template)
is classified P2WSH and decoded with the Bech32 checksum variant — not
Bech32m — as hrp `"bc"` with data word 0 followed by the 8-to-5-bit
repacking of bytes[2:34]; the result starts with `bc1q`. -/
theorem decode_p2wsh (sha256 ripemd160 : List Nat → List Nat) (s : List Nat)
    (hlen : s.length = 34) (h0 : s.getD 0 0 = 0x00) (h1 : s.getD 1 0 = 0x20)
    (hbytes : ∀ v ∈ s, v < 256) :
    ∃ ws, convertBits ((s.drop 2).take 32) 8 5 true = .ok ws
      ∧ decodeScriptPubKey sha256 ripemd160 s = .ok (bech32Encode "bc" (0 :: ws))
      ∧ ∃ tl, (bech32Encode "bc" (0 :: ws)).data = 'b' :: 'c' :: '1' :: 'q' :: tl := by
  have hsub : ∀ v ∈ (s.drop 2).take 32, v < 2 ^ 8 := by
    intro v hv
    have hmem : v ∈ s := List.drop_subset _ _ (List.take_subset _ _ hv)
    have := hbytes v hmem
    omega
  obtain ⟨ws, heq, -, -, -⟩ := convertBits_pad_ok 8 5 (by omega) _ hsub
  have hp1 : isP2PKH s = false := by
    simp only [isP2PKH]
    rw [h0]
    simp
  have hp2 : isP2SH s = false := by
    simp only [isP2SH]
    rw [hlen]
    simp
  have hp3 : isP2PK s = false := by
    simp only [isP2PK]
    rw [hlen]
    simp
  have hp4 : isP2TR s = false := by
    simp only [isP2TR]
    rw [h0]
    simp
  have hp5 : isP2WSH s = true := by
    simp only [isP2WSH]
    rw [hlen, h0, h1]
    simp
  refine ⟨ws, heq, ?_, bech32_bc1q ws⟩
  simp [decodeScriptPubKey, hp1, hp2, hp3, hp4, hp5, heq]

/-- Witness for C3 at the all-zero 32-byte script hash. -/
theorem decode_p2wsh_witness :
    ∃ ws, convertBits ((([0x00, 0x20] ++ List.replicate 32 0).drop 2).take 32)
        8 5 true = .ok ws
      ∧ decodeScriptPubKey (fun _ => []) (fun _ => [])
          ([0x00, 0x20] ++ List.replicate 32 0)
          = .ok (bech32Encode "bc" (0 :: ws))
      ∧ ∃ tl, (bech32Encode "bc" (0 :: ws)).data
          = 'b' :: 'c' :: '1' :: 'q' :: tl :=
  decode_p2wsh (fun _ => []) (fun _ => []) ([0x00, 0x20] ++ List.replicate 32 0)
    (by decide) (by decide) (by decide) (by decide)

/-- C4: a 34-byte script starting 0x51 0x20 (matching no earlier template)
is classified P2TR and decoded with the Bech32m checksum variant as hrp
`"bc"` with data word 1 followed by `convertBits(bytes[2:34], 8, 5, pad)`;
the result starts with `bc1p`. -/
theorem decode_p2tr (sha256 ripemd160 : List Nat → List Nat) (s : List Nat)
    (hlen : s.length = 34) (h0 : s.getD 0 0 = 0x51) (h1 : s.getD 1 0 = 0x20)
    (hbytes : ∀ v ∈ s, v < 256) :
    ∃ ws, convertBits ((s.drop 2).take 32) 8 5 true = .ok ws
      ∧ decodeScriptPubKey sha256 ripemd160 s = .ok (bech32mEncode "bc" (1 :: ws))
      ∧ ∃ tl, (bech32mEncode "bc" (1 :: ws)).data = 'b' :: 'c' :: '1' :: 'p' :: tl := by
  have hsub : ∀ v ∈ (s.drop 2).take 32, v < 2 ^ 8 := by
    intro v hv
    have hmem : v ∈ s := List.drop_subset _ _ (List.take_subset _ _ hv)
    have := hbytes v hmem
    omega
  obtain ⟨ws, heq, -, -, -⟩ := convertBits_pad_ok 8 5 (by omega) _ hsub
  have hp1 : isP2PKH s = false := by
    simp only [isP2PKH]
    rw [h0]
    simp
  have hp2 : isP2SH s = false := by
    simp only [isP2SH]
    rw [hlen]
    simp
  have hp3 : isP2PK s = false := by
    simp only [isP2PK]
    rw [hlen]
    simp
  have hp4 : isP2TR s = true := by
    simp only [isP2TR]
    rw [hlen, h0, h1]
    simp
  refine ⟨ws, heq, ?_, bech32m_bc1p ws⟩
  simp [decodeScriptPubKey, hp1, hp2, hp3, hp4, heq]

/-- Witness for C4 at the spec's Scenario 2 script
`51200f9dab1a72f7c48da8a1df2f913bef649bfc0d77072dffd11329b8048293d7a3`,
together with the fully evaluated Bech32m output string. -/
theorem decode_p2tr_witness :
    (∃ ws, convertBits (([0x51, 0x20, 0x0f, 0x9d, 0xab, 0x1a, 0x72, 0xf7,
          0xc4, 0x8d, 0xa8, 0xa1, 0xdf, 0x2f, 0x91, 0x3b, 0xef, 0x64, 0x9b,
          0xfc, 0x0d, 0x77, 0x07, 0x2d, 0xff, 0xd1, 0x13, 0x29, 0xb8, 0x04,
          0x82, 0x93, 0xd7, 0xa3].drop 2).take 32) 8 5 true = .ok ws
      ∧ decodeScriptPubKey (fun _ => []) (fun _ => [])
          [0x51, 0x20, 0x0f, 0x9d, 0xab, 0x1a, 0x72, 0xf7, 0xc4, 0x8d, 0xa8,
           0xa1, 0xdf, 0x2f, 0x91, 0x3b, 0xef, 0x64, 0x9b, 0xfc, 0x0d, 0x77,
           0x07, 0x2d, 0xff, 0xd1, 0x13, 0x29, 0xb8, 0x04, 0x82, 0x93, 0xd7,
           0xa3] = .ok (bech32mEncode "bc" (1 :: ws))
      ∧ ∃ tl, (bech32mEncode "bc" (1 :: ws)).data
          = 'b' :: 'c' :: '1' :: 'p' :: tl)
  ∧ decodeScriptPubKey (fun _ => []) (fun _ => [])
      [0x51, 0x20, 0x0f, 0x9d, 0xab, 0x1a, 0x72, 0xf7, 0xc4, 0x8d, 0xa8,
       0xa1, 0xdf, 0x2f, 0x91, 0x3b, 0xef, 0x64, 0x9b, 0xfc, 0x0d, 0x77,
       0x07, 0x2d, 0xff, 0xd1, 0x13, 0x29, 0xb8, 0x04, 0x82, 0x93, 0xd7,
       0xa3] = .ok "bc1pp7w6kxnj7lzgm29pmuhezwl0vjdlcrthqukll5gn9xuqfq5n673smy4m63" :=
  ⟨decode_p2tr (fun _ => []) (fun _ => []) _
      (by decide) (by decide) (by decide) (by decide),
    by decide⟩

/-- C7: decoding a P2PKH-matching script is deterministic and returns the
Base58Check encoding of version byte 0x00 followed by bytes[3:23]; the
returned string starts with the character `'1'`. -/
theorem decode_p2pkh (sha256 ripemd160 : List Nat → List Nat) (s : List Nat)
    (hlen : 25 ≤ s.length) (h0 : s.getD 0 0 = 0x76) (h1 : s.getD 1 0 = 0xa9)
    (h2 : s.getD 2 0 = 0x14) :
    decodeScriptPubKey sha256 ripemd160 s
        = .ok (base58CheckEncode sha256 (0x00 :: (s.drop 3).take 20))
      ∧ decodeScriptPubKey sha256 ripemd160 s
        = decodeScriptPubKey sha256 ripemd160 s
      ∧ (base58CheckEncode sha256 (0x00 :: (s.drop 3).take 20)).data.head?
        = some '1' := by
  have hp : isP2PKH s = true := by
    simp only [isP2PKH]
    rw [h0, h1, h2]
    simp [hlen]
  refine ⟨?_, rfl, ?_⟩
  · simp [decodeScriptPubKey, hp]
  · rw [base58CheckEncode,
      show (0x00 :: (s.drop 3).take 20)
          ++ (sha256 (sha256 (0x00 :: (s.drop 3).take 20))).take 4
        = 0 :: ((s.drop 3).take 20
          ++ (sha256 (sha256 (0x00 :: (s.drop 3).take 20))).take 4) from rfl,
      base58Encode_zero_head]
    rfl

/-- Witness for C7 at a concrete 25-byte P2PKH script with a concrete
stand-in hash. -/
theorem decode_p2pkh_witness :
    decodeScriptPubKey (fun _ => [5, 6, 7, 8, 9]) (fun _ => [])
        ([0x76, 0xa9, 0x14] ++ (List.replicate 20 9 ++ [0x88, 0xac]))
        = .ok (base58CheckEncode (fun _ => [5, 6, 7, 8, 9])
            (0x00 :: ((([0x76, 0xa9, 0x14]
              ++ (List.replicate 20 9 ++ [0x88, 0xac])).drop 3).take 20)))
      ∧ (base58CheckEncode (fun _ => [5, 6, 7, 8, 9])
          (0x00 :: ((([0x76, 0xa9, 0x14]
            ++ (List.replicate 20 9 ++ [0x88, 0xac])).drop 3).take 20))).data.head?
        = some '1' := by
  have h := decode_p2pkh (fun _ => [5, 6, 7, 8, 9]) (fun _ => [])
    ([0x76, 0xa9, 0x14] ++ (List.replicate 20 9 ++ [0x88, 0xac]))
    (by decide) (by decide) (by decide) (by decide)
  exact ⟨h.1, h.2.2⟩

/-- C8: a script of length ≥ 2 starting 0x6a (which then matches no earlier
template) decodes to the literal string `"OP_RETURN: "` followed by the hex
of bytes[2 : 2+byte[1]], where the declared length byte[1] is trusted: the
extraction truncates to the available bytes and the call succeeds. -/
theorem decode_opreturn (sha256 ripemd160 : List Nat → List Nat) (s : List Nat)
    (hlen : 2 ≤ s.length) (h0 : s.getD 0 0 = 0x6a) :
    decodeScriptPubKey sha256 ripemd160 s
        = .ok ("OP_RETURN: " ++ hexOfBytes ((s.drop 2).take (s.getD 1 0)))
      ∧ ((s.drop 2).take (s.getD 1 0)).length
        = min (s.getD 1 0) (s.length - 2) := by
  have hp1 : isP2PKH s = false := by
    simp only [isP2PKH]
    rw [h0]
    simp
  have hp2 : isP2SH s = false := by
    simp only [isP2SH]
    rw [h0]
    simp
  have hp3 : isP2PK s = false := by
    simp only [isP2PK]
    rw [h0]
    simp
  have hp4 : isP2TR s = false := by
    simp only [isP2TR]
    rw [h0]
    simp
  have hp5 : isP2WSH s = false := by
    simp only [isP2WSH]
    rw [h0]
    simp
  have hp6 : isOpReturn s = true := by
    simp only [isOpReturn]
    rw [h0]
    simp [hlen]
  constructor
  · simp [decodeScriptPubKey, hp1, hp2, hp3, hp4, hp5, hp6]
  · rw [List.length_take, List.length_drop]

/-- Witness for C8: a script declaring 16 data bytes but carrying only 2 is
silently truncated and still succeeds. -/
theorem decode_opreturn_witness :
    decodeScriptPubKey (fun _ => []) (fun _ => []) [0x6a, 0x10, 0xde, 0xad]
        = .ok "OP_RETURN: dead"
      ∧ (([0x6a, 0x10, 0xde, 0xad].drop 2).take
          ([0x6a, 0x10, 0xde, 0xad].getD 1 0)).length = min 0x10 2 := by
  have h := decode_opreturn (fun _ => []) (fun _ => []) [0x6a, 0x10, 0xde, 0xad]
    (by decide) (by decide)
  refine ⟨?_, by decide⟩
  rw [h.1]
  decide

/-- A character list that has odd length or contains a non-hex character
makes the spec-modelled hex parser fail with `InvalidHexInput`. -/
theorem parseHexChars_err : ∀ (cs : List Char),
    (cs.length % 2 = 1 ∨ ∃ c ∈ cs, hexDigitVal c = none) →
    parseHexChars cs = .error .invalidHexInput
  | [], h => by simp at h
  | [_], _ => rfl
  | c1 :: c2 :: rest, h => by
    simp only [parseHexChars]
    cases hd1 : hexDigitVal c1 with
    | none => rfl
    | some a =>
      cases hd2 : hexDigitVal c2 with
      | none => rfl
      | some b =>
        have hrest : rest.length % 2 = 1 ∨ ∃ c ∈ rest, hexDigitVal c = none := by
          rcases h with hodd | ⟨c, hc, hnone⟩
          · left
            simp only [List.length_cons] at hodd
            omega
          · right
            rcases List.mem_cons.mp hc with rfl | hc'
            · rw [hd1] at hnone
              exact absurd hnone (by simp)
            rcases List.mem_cons.mp hc' with rfl | hc''
            · rw [hd2] at hnone
              exact absurd hnone (by simp)
            · exact ⟨c, hc'', hnone⟩
        rw [parseHexChars_err rest hrest]

/-- C9: the decode entry point fails with `InvalidHexInput` — before any
classification — on a hex string of odd length or containing a
non-hexadecimal character. -/
theorem decodeAddress_invalid_hex (sha256 ripemd160 : List Nat → List Nat)
    (hex : String)
    (h : hex.data.length % 2 = 1 ∨ ∃ c ∈ hex.data, hexDigitVal c = none) :
    decodeAddress sha256 ripemd160 hex = .error .invalidHexInput := by
  simp only [decodeAddress, parseHexChars_err hex.data h]

/-- Witness for C9: an odd-length hex string and a string with a non-hex
character both fail with `InvalidHexInput`. -/
theorem decodeAddress_invalid_hex_witness :
    decodeAddress (fun _ => []) (fun _ => []) "a00"
        = .error .invalidHexInput
  ∧ decodeAddress (fun _ => []) (fun _ => []) "00zz"
        = .error .invalidHexInput :=
  ⟨decodeAddress_invalid_hex (fun _ => []) (fun _ => []) "a00"
      (Or.inl (by decide)),
    decodeAddress_invalid_hex (fun _ => []) (fun _ => []) "00zz"
      (Or.inr ⟨'z', by decide, by decide⟩)⟩

/-- C10 counterexample: on a P2WSH script the committed TypeScript decoder
(`src/extract.ts`) fails with `UnsupportedScriptFormat` while the shipped
dist decoder (`src/dist/extract.js`) returns a Bech32 address, so the two
`decodeScriptPubKey` functions do not compute the same result. -/
theorem decodeTS_ne_decode_p2wsh :
    decodeScriptPubKeyTS (fun _ => []) ([0x00, 0x20] ++ List.replicate 32 0)
      ≠ decodeScriptPubKey (fun _ => []) (fun _ => [])
          ([0x00, 0x20] ++ List.replicate 32 0) := by
  decide

/-- C10 (amended): the two decoders agree on every script matching the
P2PKH, P2SH or P2TR template, and on every script matching none of the six
templates; their only divergences are the P2PK hash derivation and the
P2WSH/OP_RETURN branches absent from `src/extract.ts`. -/
theorem decodeTS_eq_decode_on_shared (sha256 ripemd160 : List Nat → List Nat)
    (s : List Nat)
    (h : isP2PKH s = true ∨ isP2SH s = true ∨ isP2TR s = true
      ∨ (isP2PKH s = false ∧ isP2SH s = false ∧ isP2PK s = false
        ∧ isP2TR s = false ∧ isP2WSH s = false ∧ isOpReturn s = false)) :
    decodeScriptPubKeyTS sha256 s = decodeScriptPubKey sha256 ripemd160 s := by
  rcases h with h1 | h2 | h4 | ⟨h1, h2, h3, h4, h5, h6⟩
  · simp [decodeScriptPubKeyTS, decodeScriptPubKey, h1]
  · have hlen : s.length = 23 := by
      have h2' := h2
      simp only [isP2SH, Bool.and_eq_true, beq_iff_eq, decide_eq_true_eq] at h2'
      exact h2'.1.1.1
    have hp1 : isP2PKH s = false := by
      simp only [isP2PKH]
      rw [hlen]
      simp
    simp [decodeScriptPubKeyTS, decodeScriptPubKey, hp1, h2]
  · have h4' := h4
    simp only [isP2TR, Bool.and_eq_true, beq_iff_eq, decide_eq_true_eq] at h4'
    obtain ⟨⟨hlen, h0⟩, -⟩ := h4'
    have hp1 : isP2PKH s = false := by
      simp only [isP2PKH]
      rw [h0]
      simp
    have hp2 : isP2SH s = false := by
      simp only [isP2SH]
      rw [hlen]
      simp
    have hp3 : isP2PK s = false := by
      simp only [isP2PK]
      rw [hlen]
      simp
    simp [decodeScriptPubKeyTS, decodeScriptPubKey, hp1, hp2, hp3, h4]
  · simp [decodeScriptPubKeyTS, decodeScriptPubKey, h1, h2, h3, h4, h5, h6]

/-- Witness for the amended C10 at a shared-template input (a P2TR script)
and at an unmatched input. -/
theorem decodeTS_eq_decode_on_shared_witness :
    decodeScriptPubKeyTS (fun _ => []) ([0x51, 0x20] ++ List.replicate 32 0)
        = decodeScriptPubKey (fun _ => []) (fun _ => [])
            ([0x51, 0x20] ++ List.replicate 32 0)
  ∧ decodeScriptPubKeyTS (fun _ => []) [0x00]
        = decodeScriptPubKey (fun _ => []) (fun _ => []) [0x00] :=
  ⟨decodeTS_eq_decode_on_shared (fun _ => []) (fun _ => []) _
      (Or.inr (Or.inr (Or.inl (by decide)))),
    decodeTS_eq_decode_on_shared (fun _ => []) (fun _ => []) _
      (Or.inr (Or.inr (Or.inr
        ⟨by decide, by decide, by decide, by decide, by decide, by decide⟩)))⟩

end BitcoinDecode



